import Mathlib

/-!
Verification development for the `mat285/go-sdk` repository: the certificate
hot-reload subsystem (`certs` package) and its deduplicating bounded queue
(`sync/collections.Set`). Go code is shallowly embedded: pure functions become
Lean functions, stateful methods become explicit state passing, Go channels
become capacity-tagged buffers, the filesystem and the clock become explicit
parameters, and fallible calls return explicit result types.
-/

/- ### sync/collections.Set — the deduplicating bounded queue -/

/-- A Go buffered channel of capacity `cap`, modelled as its FIFO buffer
contents. A send appends, a receive pops the front. -/
structure GoChan (T : Type) where
  cap : Nat
  buf : List T
deriving DecidableEq, Repr

/-- Model of `collections.Set[T]` from `sync/collections`: a membership map `set`
(modelled as its key list) plus a buffered channel `ch`. The mutex is
elided: every method runs under it, so methods are atomic state
transformers. -/
structure SyncSet (T : Type) where
  set : List T
  ch : GoChan T
deriving DecidableEq, Repr

/-- Model of `NewSet(cap)`: empty membership map and an empty channel of capacity `cap`. -/
def SyncSet.New (T : Type) (c : Nat) : SyncSet T :=
  { set := [], ch := { cap := c, buf := [] } }

/-- Model of `Set.Push(i)`: return if `i` is already a member; return if the channel is
full; otherwise send `i` on the channel. Note that the source never inserts
`i` into `s.set`, so the membership map stays empty across pushes. -/
def SyncSet.Push [DecidableEq T] (s : SyncSet T) (i : T) : SyncSet T :=
  if i ∈ s.set then s
  else if s.ch.buf.length = s.ch.cap then s
  else { s with ch := { s.ch with buf := s.ch.buf ++ [i] } }

/-- Model of `Set.Remove(i)`: delete `i` from the membership map. -/
def SyncSet.Remove [DecidableEq T] (s : SyncSet T) (i : T) : SyncSet T :=
  { s with set := s.set.erase i }

/-- Model of `Set.Poll(ctx)`: receive from the channel, then `Remove` the received
value from membership and return it. `none` models the blocked case (empty
buffer with no sender: the call waits for cancellation). -/
def SyncSet.Poll [DecidableEq T] (s : SyncSet T) : Option (T × SyncSet T) :=
  match s.ch.buf with
  | [] => none
  | v :: rest => some (v, SyncSet.Remove { s with ch := { s.ch with buf := rest } } v)

/-- Model of `Set.Empty()`: drain every buffered item and reset the membership map. -/
def SyncSet.Empty (s : SyncSet T) : SyncSet T :=
  { s with set := [], ch := { s.ch with buf := [] } }

/-- Model of `Set.Len()`: the size of the membership map. -/
def SyncSet.Len (s : SyncSet T) : Nat :=
  s.set.length

/-- Model of `Set.Cap()`: the channel capacity. -/
def SyncSet.Cap (s : SyncSet T) : Nat :=
  s.ch.cap

/-- Model of `Set.Expand(ns)`: the source returns immediately when `cap(s.ch) < ns`,
i.e. exactly when the requested capacity is larger than the current one;
otherwise it allocates a channel of capacity `ns` and transfers the buffered
items in order. `none` models the transfer loop blocking forever (a send into
the fresh channel once it is full, performed while holding the lock). -/
def SyncSet.Expand (s : SyncSet T) (ns : Nat) : Option (SyncSet T) :=
  if s.ch.cap < ns then some s
  else if s.ch.buf.length ≤ ns then
    some { s with ch := { cap := ns, buf := s.ch.buf } }
  else none

/- ### certs.Cert and LoadCertPair -/

/-- The parsed fields of an X.509 certificate that this code reads:
`Leaf.DNSNames`, `Leaf.Subject.CommonName`, `Leaf.NotBefore`, `Leaf.NotAfter`.
Times are modelled as integers; `t.After(u)` is `t > u`. -/
structure X509 where
  notBefore : Int
  notAfter : Int
  dnsNames : List String
  commonName : String
deriving DecidableEq, Repr

/-- A DER certificate blob, modelled by the (deterministic) result of
`x509.ParseCertificate` on it: `none` is a blob that fails to parse. -/
abbrev RawCert := Option X509

/-- Model of `certs.File`: a path and its recorded modification time. -/
structure GoFile where
  path : String
  mod : Int
deriving DecidableEq, Repr

/-- Model of `certs.Cert`: name, the two file records, the load watermark, and the
`tls.Certificate` material (chain plus lazily parsed leaf). -/
structure Cert where
  name : String
  certFile : GoFile
  keyFile : GoFile
  loaded : Int
  chain : List RawCert
  leaf : Option X509
deriving DecidableEq, Repr

/-- The filesystem and TLS library as this code observes them: `stat` yields a
modification time (`none` is a stat error, e.g. a missing file), and
`loadX509KeyPair` yields the certificate chain of `tls.LoadX509KeyPair`
(an `Except` error covers unreadable or unparseable pairs). -/
structure GoFS where
  stat : String → Option Int
  loadX509KeyPair : String → String → Except String (List RawCert)

/-- Result of `LoadCertPair`: `(nil, err)`, `(nil, nil)` (no update), or
`(*Cert, nil)`. -/
inductive LoadResult
  | err (msg : String)
  | noUpdate
  | loaded (cert : Cert)
deriving DecidableEq, Repr

/-- Model of `certs.LoadCertPair(name, mod)`: stat `name.crt` and `name.key`, return
"no update" when `mod` is after both modification times, else parse the key
pair, reject an empty chain, parse the leaf, reject a leaf whose validity
window does not contain `now`, and build the `Cert`. -/
def LoadCertPair (fs : GoFS) (now : Int) (name : String) (mod : Int) : LoadResult :=
  let certFile := name ++ ".crt"
  let keyFile := name ++ ".key"
  match fs.stat certFile with
  | none => .err "stat cert file"
  | some cmod =>
    match fs.stat keyFile with
    | none => .err "stat key file"
    | some kmod =>
      if mod > cmod ∧ mod > kmod then .noUpdate
      else
        match fs.loadX509KeyPair certFile keyFile with
        | .error e => .err e
        | .ok chain =>
          match chain with
          | [] => .err "no certs parsed"
          | r :: _ =>
            match r with
            | none => .err "x509 parse error"
            | some xcert =>
              if now > xcert.notAfter ∨ now < xcert.notBefore then
                .err "invalid cert parsed"
              else
                .loaded { name := name
                          certFile := { path := certFile, mod := cmod }
                          keyFile := { path := keyFile, mod := kmod }
                          loaded := now
                          chain := chain
                          leaf := some xcert }

/-- Model of `Cert.DNSNames()`: empty for an empty chain; otherwise the leaf (parsed
from the chain head when not already cached — the source memoises the parse,
which is observationally irrelevant) yields its SAN entries with the Common
Name appended; a parse failure yields the empty list. -/
def Cert.DNSNames (c : Cert) : List String :=
  match c.chain with
  | [] => []
  | r :: _ =>
    match c.leaf with
    | some leaf => leaf.dnsNames ++ [leaf.commonName]
    | none =>
      match r with
      | none => []
      | some leaf => leaf.dnsNames ++ [leaf.commonName]

/-- Model of `Cert.Reload()`: `LoadCertPair(c.Name, c.Loaded)`; on error, no change and
the error; on "no update", no change; on success, replace the certificate
material and the `Loaded` watermark in place. -/
def Cert.reload (fs : GoFS) (now : Int) (c : Cert) : Cert × Option String :=
  match LoadCertPair fs now c.name c.loaded with
  | .err e => (c, some e)
  | .noUpdate => (c, none)
  | .loaded nc => ({ c with chain := nc.chain, leaf := nc.leaf, loaded := nc.loaded }, none)

/-- Model of `certs.WildcardFor`, on the underlying characters: scan for the first
`'.'` and return `'*'` followed by the suffix from that dot; empty when the
name has no dot. -/
def wildcardForChars : List Char → List Char
  | [] => []
  | c :: rest => if c = '.' then '*' :: c :: rest else wildcardForChars rest

/-- Model of `certs.WildcardFor(name)`. -/
def WildcardFor (name : String) : String :=
  String.mk (wildcardForChars name.data)

/- ### certs.Cache -/

/-- Model of `certs.Cache`: the `certs` (by-name) and `sni` (by-DNS-name) mappings.
The mutex is elided as for `SyncSet`; the logger and the `modified`
side-channel map are omitted (no claim touches them). -/
structure CacheSt where
  certs : String → Option Cert
  sni : String → Option Cert

/-- Model of `certs.NewCache()`: both maps empty. -/
def CacheSt.New : CacheSt :=
  { certs := fun _ => none, sni := fun _ => none }

/-- One key update of a Go map value. -/
def mapUpdate (m : String → Option Cert) (k : String) (v : Cert) : String → Option Cert :=
  fun x => if x = k then some v else m x

/-- The body of `Cache.set` for one non-nil cert: record it in `certs` under
its name, then rebuild `sni` as a copy of the current snapshot with every DNS
name of the cert pointed at it, and publish the new snapshot. -/
def CacheSt.set1 (c : CacheSt) (cert : Cert) : CacheSt :=
  { certs := mapUpdate c.certs cert.name cert
    sni := cert.DNSNames.foldl (fun m dn => mapUpdate m dn cert) c.sni }

/-- Model of `Cache.set(certs...)`: apply `set1` to each cert in order, skipping nil
entries. -/
def CacheSt.set (c : CacheSt) (certs : List (Option Cert)) : CacheSt :=
  certs.foldl (fun acc oc => match oc with | none => acc | some cert => acc.set1 cert) c

/-- Model of `Cache.GetSNI(dnsName)`: unlocked read of the current `sni` snapshot;
exact lookup first, then the wildcard derived by `WildcardFor` when it is
nonempty. (The source's nil-map guard cannot fire for a cache built by
`NewCache`, which allocates the map; the model carries the map directly.) -/
def CacheSt.GetSNI (c : CacheSt) (dnsName : String) : Option Cert :=
  match c.sni dnsName with
  | some cert => some cert
  | none =>
    let wildcard := WildcardFor dnsName
    if wildcard.length = 0 then none
    else c.sni wildcard

/-- Result of `Cache.Reload`: `(added bool, err)`. -/
inductive ReloadResult
  | err (msg : String)
  | ok (added : Bool)
deriving DecidableEq, Repr

/-- Model of `Cache.Reload(name)`: when `name` is tracked, reload that cert in place
(watermark cutoff) and report `added = true`; otherwise load the pair fresh
with the zero cutoff. Any error is returned with the cache untouched; on
success the (possibly nil) result goes through `set`. -/
def CacheSt.Reload (fs : GoFS) (now : Int) (c : CacheSt) (name : String) :
    CacheSt × ReloadResult :=
  match c.certs name with
  | some cert =>
    match Cert.reload fs now cert with
    | (_, some e) => (c, .err e)
    | (cert2, none) => (c.set1 cert2, .ok true)
  | none =>
    match LoadCertPair fs now name 0 with
    | .err e => (c, .err e)
    | .noUpdate => (c, .ok false)
    | .loaded nc => (c.set1 nc, .ok false)

/-- Model of `Reloader.GetCertificate`: `Cache.GetSNI` on the hello's server name; an
error when no certificate matches. -/
def Reloader.GetCertificate (c : CacheSt) (serverName : String) : Except String Cert :=
  match c.GetSNI serverName with
  | none => .error ("no cert for name " ++ serverName)
  | some cert => .ok cert

/- ### certs.RemoveSubdirectories -/

/-- Go paths are byte strings; all constants here are ASCII, so a character
list is a faithful model ('/' cannot occur inside a multi-byte UTF-8 rune). -/
abbrev GoPath := List Char

/-- The trailing-separator trim loop of `RemoveSubdirectories`:
`for len(dir) > 0 && dir[len(dir)-1] == '/' { dir = dir[:len(dir)-1] }`. -/
def trimTrailing (d : GoPath) : GoPath :=
  ((d.reverse.dropWhile (fun c => c = '/'))).reverse

/-- Model of `certs.isSubdirOf(set, dir)`: `dir` itself is in the set, or some proper
truncation of `dir` at a `'/'` is in the set. -/
def isSubdirOf (s : List GoPath) (dir : GoPath) : Bool :=
  decide (dir ∈ s) ||
    (List.range dir.length).any fun i =>
      decide (dir.get? i = some '/') && decide (dir.take i ∈ s)

/-- One insertion step of sorting by ascending length (the source sorts with
`sort.Slice(dirs, func(i, j) { return len(dirs[i]) < len(dirs[j]) })`; any
length-sorted permutation is a faithful model of that unstable sort). -/
def insertByLen (d : GoPath) : List GoPath → List GoPath
  | [] => [d]
  | e :: rest => if d.length < e.length then d :: e :: rest else e :: insertByLen d rest

/-- Sort the directory list by ascending length. -/
def sortByLen (l : List GoPath) : List GoPath :=
  l.foldr insertByLen []

/-- The selection loop of `RemoveSubdirectories`: trim trailing separators,
skip empties, skip anything `isSubdirOf` the already-selected set, otherwise
add the trimmed directory to the set (a Go map keyed by the path). -/
def rsLoop (s : List GoPath) : List GoPath → List GoPath
  | [] => s
  | d :: rest =>
    let dir := trimTrailing d
    if d.length = 0 then rsLoop s rest
    else if isSubdirOf s d then rsLoop s rest
    else if dir ∈ s then rsLoop s rest
    else rsLoop (s ++ [dir]) rest

/-- Split a path into its `'/'`-separated chunks (maximal runs of
non-separator bytes; empty chunks stand for repeated, leading or trailing
separators). -/
def segsOf : GoPath → List GoPath
  | [] => [[]]
  | c :: rest =>
    if c = '/' then [] :: segsOf rest
    else (c :: (segsOf rest).headI) :: (segsOf rest).tail

/-- The element stack of Go's `filepath.Clean` on a rooted path, per its
documented lexical rules: drop empty chunks (repeated separators) and `.`
elements; `..` removes the preceding element (and is itself dropped at the
root, where the stack is empty); every other chunk is kept in order. -/
def procSegs (acc : List GoPath) : List GoPath → List GoPath
  | [] => acc
  | seg :: rest =>
    if seg = [] then procSegs acc rest
    else if seg = ['.'] then procSegs acc rest
    else if seg = ['.', '.'] then procSegs acc.dropLast rest
    else procSegs (acc ++ [seg]) rest

/-- Join path elements with single separators. -/
def joinSlash : List GoPath → GoPath
  | [] => []
  | [s] => s
  | s :: rest => s ++ '/' :: joinSlash rest

/-- Model of Go's `filepath.Clean` (standard library, outside this
repository) restricted to rooted paths — the only paths this code cleans,
since `Abs` joins relative paths onto the absolute working directory first:
`'/'` followed by the processed element stack, or the bare root when the
stack comes out empty. -/
def goCleanRooted (p : GoPath) : GoPath :=
  match procSegs [] (segsOf p) with
  | [] => ['/']
  | s :: rest => '/' :: joinSlash (s :: rest)

/-- Model of Go's `filepath.Abs` (standard library, outside this repository):
a rooted path is cleaned as is; a relative path is joined onto the process
working directory `wd` (an OS input, carried as an explicit parameter) and
the result cleaned. `Abs` can only fail when `Getwd` fails; `wd` being given,
that path is elided. -/
def goAbs (wd : GoPath) (p : GoPath) : GoPath :=
  if p.head? = some '/' then goCleanRooted p
  else goCleanRooted (wd ++ '/' :: p)

/-- Model of `certs.RemoveSubdirectories(dirs)`: resolve each nonempty entry
via `filepath.Abs` (against the working directory `wd`), sort by ascending
length, then run the selection loop. The source's output order is Go
map-iteration order; conclusions are stated up to membership. -/
def RemoveSubdirectories (wd : GoPath) (dirs : List GoPath) : List GoPath :=
  rsLoop [] (sortByLen (dirs.map fun d => if d.length = 0 then d else goAbs wd d))

/-- Relation: `b` lies strictly inside the directory `a`: `b = a ++ "/" ++ rest`. -/
def Subdir (a b : GoPath) : Prop :=
  ∃ rest, b = a ++ '/' :: rest

/-- An absolute path with no trailing separator — the shape of every surviving
directory except the degenerate root (which the trim loop reduces to the empty
path, see the counterexample). -/
def AbsClean (d : GoPath) : Prop :=
  d.head? = some '/' ∧ d.getLast? ≠ some '/'

/- ### Reloader running flag -/

/-- The `running` flag of `certs.Reloader`; the model tracks exactly the
fields this flag's lifecycle touches. -/
structure ReloaderSt where
  running : Bool
deriving DecidableEq, Repr

/-- What `Reloader.run` (and the guard at the top of `start`) does to the
flag: reject with `ErrAlreadyRunning` when it is set, otherwise set it. The
source checks the flag both before and after taking the lock; sequentially the
two checks collapse to one. -/
inductive RunEntry
  | alreadyRunning
  | entered
deriving DecidableEq, Repr

/-- The guard-and-set at the top of `Reloader.run`. -/
def ReloaderSt.runGuard (r : ReloaderSt) : ReloaderSt × RunEntry :=
  if r.running then (r, .alreadyRunning) else ({ running := true }, .entered)

/-- The return path of `Reloader.run`: it cancels contexts and closes
channels but never writes `running`. -/
def ReloaderSt.runReturn (r : ReloaderSt) : ReloaderSt := r

/-- Model of `Reloader.Stop`: reads `running`, cancels and waits; never writes
`running`. -/
def ReloaderSt.stop (r : ReloaderSt) : ReloaderSt := r

/-- Operations that touch (or could touch) the flag over a Reloader's life. -/
inductive ROp
  | enter
  | runDone
  | stopCall
deriving DecidableEq, Repr

/-- Effect of each operation on the flag state. -/
def ReloaderSt.step (r : ReloaderSt) : ROp → ReloaderSt
  | .enter => r.runGuard.1
  | .runDone => r.runReturn
  | .stopCall => r.stop

/- ### Concrete data used by witnesses and counterexamples -/

/-- Length-ordered comparison used by the sort. -/
def lenLE (a b : GoPath) : Prop := a.length ≤ b.length

instance (d : GoPath) : Decidable (AbsClean d) := by
  unfold AbsClean
  infer_instance

/-- A certificate whose leaf carries the wildcard SAN `*.com`. -/
def starComCert : Cert :=
  { name := "star"
    certFile := { path := "star.crt", mod := 1 }
    keyFile := { path := "star.key", mod := 1 }
    loaded := 2
    chain := [some { notBefore := 0, notAfter := 9, dnsNames := ["*.com"],
                     commonName := "star.com" }]
    leaf := some { notBefore := 0, notAfter := 9, dnsNames := ["*.com"],
                   commonName := "star.com" } }

/-- A filesystem where both files of `n` were last modified at time 1. -/
def fsModsOne : GoFS :=
  { stat := fun p => if p = "n.crt" then some 1 else if p = "n.key" then some 1 else none
    loadX509KeyPair := fun _ _ => .error "unused" }

/-- A filesystem where both files of `n` were last modified exactly at time 5
and parse to a certificate valid on [0, 9]. -/
def fsBoundary : GoFS :=
  { stat := fun p => if p = "n.crt" then some 5 else if p = "n.key" then some 5 else none
    loadX509KeyPair := fun _ _ =>
      .ok [some { notBefore := 0, notAfter := 9, dnsNames := ["www.n"],
                  commonName := "n" }] }

/-- A certificate for name `n`, loaded at time 5, SAN `www.n`. -/
def reloadedCert : Cert :=
  { name := "n"
    certFile := { path := "n.crt", mod := 1 }
    keyFile := { path := "n.key", mod := 1 }
    loaded := 5
    chain := [some { notBefore := 0, notAfter := 9, dnsNames := ["www.n"],
                     commonName := "n.cn" }]
    leaf := some { notBefore := 0, notAfter := 9, dnsNames := ["www.n"],
                   commonName := "n.cn" } }

/-- Certificate `a`, SAN `x`, loaded at 5. -/
def overlapCertA : Cert :=
  { name := "a"
    certFile := { path := "a.crt", mod := 1 }
    keyFile := { path := "a.key", mod := 1 }
    loaded := 5
    chain := [some { notBefore := 0, notAfter := 9, dnsNames := ["x"],
                     commonName := "a.cn" }]
    leaf := some { notBefore := 0, notAfter := 9, dnsNames := ["x"],
                   commonName := "a.cn" } }

/-- Certificate `b`, also SAN `x`, loaded at 5. -/
def overlapCertB : Cert :=
  { name := "b"
    certFile := { path := "b.crt", mod := 1 }
    keyFile := { path := "b.key", mod := 1 }
    loaded := 5
    chain := [some { notBefore := 0, notAfter := 9, dnsNames := ["x"],
                     commonName := "b.cn" }],
    leaf := some { notBefore := 0, notAfter := 9, dnsNames := ["x"],
                   commonName := "b.cn" } }

/-- The filesystem backing `a`: both files last modified at 1, unchanged
throughout. -/
def fsOverlap : GoFS :=
  { stat := fun p => if p = "a.crt" then some 1 else if p = "a.key" then some 1 else none
    loadX509KeyPair := fun _ _ => .error "unused" }

/- ### Shared lemmas about the Cache index -/

theorem foldl_mapUpdate_apply (cert : Cert) :
    ∀ (dns : List String) (m : String → Option Cert) (k : String),
      (dns.foldl (fun m dn => mapUpdate m dn cert) m) k =
        if k ∈ dns then some cert else m k := by
  intro dns
  induction dns with
  | nil => intro m k; simp
  | cons d rest ih =>
    intro m k
    simp only [List.foldl_cons]
    rw [ih]
    by_cases hk : k ∈ rest
    · simp [hk]
    · by_cases hd : k = d <;> simp [hk, hd, mapUpdate]

theorem CacheSt.set1_sni (c : CacheSt) (cert : Cert) (k : String) :
    (c.set1 cert).sni k = if k ∈ cert.DNSNames then some cert else c.sni k :=
  foldl_mapUpdate_apply cert cert.DNSNames c.sni k

theorem CacheSt.set1_certs (c : CacheSt) (cert : Cert) (k : String) :
    (c.set1 cert).certs k = if k = cert.name then some cert else c.certs k :=
  rfl

/- ### Claims C1 and C2: the DedupQueue defects -/

/-- Claim C1: the claim (and the spec) say `Push(v)` records `v`'s membership
so that pushing the same key twice before polling delivers it once. The
source's `Push` never inserts into `s.set` (the `s.set[i] = true` write is
absent), so the membership check can never fire: two pushes of `"a"` buffer it
twice, `Len` stays `0`, and two consecutive `Poll`s each deliver `"a"`. This
evaluates the embedded code at that failing input. -/
theorem c1_push_missing_membership_eval :
    (((SyncSet.New String 2).Push "a").Push "a").set = [] ∧
    (((SyncSet.New String 2).Push "a").Push "a").ch.buf = ["a", "a"] ∧
    (((SyncSet.New String 2).Push "a").Push "a").Len = 0 ∧
    (((((SyncSet.New String 2).Push "a").Push "a").Poll).map fun p => p.1) = some "a" ∧
    ((((((SyncSet.New String 2).Push "a").Push "a").Poll).bind fun p => p.2.Poll).map
        fun p => p.1) = some "a" := by
  decide

/-- Claim C2: the claim (and the spec) say `Expand(ns)` with `ns` greater than
the current capacity reallocates to the larger buffer and capacity never
decreases. The source's guard `if cap(s.ch) < ns { return }` is inverted: it
skips expansion exactly when `ns` is larger, and reallocates (shrinking) when
`ns` is not larger. Evaluated here: `Expand 8` on a capacity-4 queue holding
one item returns the state unchanged (capacity still 4), while `Expand 2` on
an empty capacity-4 queue shrinks the capacity to 2. -/
theorem c2_expand_guard_inverted_eval :
    ((SyncSet.New String 4).Push "a").Expand 8 = some ((SyncSet.New String 4).Push "a") ∧
    (((SyncSet.New String 4).Push "a").Expand 8).map SyncSet.Cap = some 4 ∧
    ((SyncSet.New String 4).Expand 2).map SyncSet.Cap = some 2 := by
  decide

/- ### Claim C9: the running flag is monotone -/

theorem reloader_step_keeps_running (op : ROp) (r : ReloaderSt)
    (h : r.running = true) : (r.step op).running = true := by
  cases op with
  | enter =>
    simp only [ReloaderSt.step, ReloaderSt.runGuard, h, if_true]
  | runDone => exact h
  | stopCall => exact h

theorem reloader_foldl_keeps_running :
    ∀ (ops : List ROp) (r : ReloaderSt), r.running = true →
      (ops.foldl ReloaderSt.step r).running = true := by
  intro ops
  induction ops with
  | nil => intro r h; exact h
  | cons op rest ih =>
    intro r h
    exact ih (r.step op) (reloader_step_keeps_running op r h)

/-- Claim C9: the `running` flag, once set by a `run` that passes the
double-start guard, is never reset by any later operation (run completion,
`Stop`, further starts); hence every subsequent `Run`/`Start` on the same
Reloader takes the `ErrAlreadyRunning` branch and leaves the state unchanged —
there is no transition back from Stopped. -/
theorem c9_running_flag_monotone (r : ReloaderSt) (ops : List ROp) :
    (r.runGuard.2 = RunEntry.entered → r.runGuard.1.running = true) ∧
    (r.running = true →
      (ops.foldl ReloaderSt.step r).running = true ∧
      (ops.foldl ReloaderSt.step r).runGuard.2 = RunEntry.alreadyRunning ∧
      (ops.foldl ReloaderSt.step r).runGuard.1 = ops.foldl ReloaderSt.step r) := by
  constructor
  · intro h
    by_cases hr : r.running
    · simp [ReloaderSt.runGuard, hr] at h
    · simp [ReloaderSt.runGuard, hr]
  · intro h
    have hrun := reloader_foldl_keeps_running ops r h
    refine ⟨hrun, ?_, ?_⟩
    · simp [ReloaderSt.runGuard, hrun]
    · simp [ReloaderSt.runGuard, hrun]

/-- Witness for C9: a Reloader that has entered `run` (flag set) still reports
`running` after a stop, a run completion, and a re-entry attempt, and the
re-entry attempt is rejected with the state unchanged. -/
theorem c9_running_flag_monotone_witness :
    (([ROp.stopCall, ROp.runDone, ROp.enter].foldl ReloaderSt.step
        { running := true }).running = true) ∧
    ([ROp.stopCall, ROp.runDone, ROp.enter].foldl ReloaderSt.step
        { running := true }).runGuard.2 = RunEntry.alreadyRunning ∧
    ([ROp.stopCall, ROp.runDone, ROp.enter].foldl ReloaderSt.step
        { running := true }).runGuard.1 =
      [ROp.stopCall, ROp.runDone, ROp.enter].foldl ReloaderSt.step { running := true } :=
  (c9_running_flag_monotone { running := true } [ROp.stopCall, ROp.runDone, ROp.enter]).2 rfl

/- ### Claim C10: the empty Common Name is registered as a DNS name -/

/-- Claim C10: for a cert with a nonempty chain whose leaf parses,
`DNSNames()` is the leaf's SAN list with the Common Name appended last, even
when the Common Name is empty; `Cache.set` therefore registers the cert under
the empty DNS name, and `GetSNI("")` returns it rather than absent. -/
theorem c10_empty_common_name_registered (co : CacheSt) (cert : Cert) (x : X509)
    (r : RawCert) (rest : List RawCert)
    (hchain : cert.chain = r :: rest)
    (hleaf : cert.leaf = some x ∨ (cert.leaf = none ∧ r = some x))
    (hcn : x.commonName = "") :
    cert.DNSNames = x.dnsNames ++ [""] ∧
    "" ∈ cert.DNSNames ∧
    (co.set1 cert).GetSNI "" = some cert := by
  have hdns : cert.DNSNames = x.dnsNames ++ [""] := by
    rcases hleaf with h | ⟨h1, h2⟩
    · simp [Cert.DNSNames, hchain, h, hcn]
    · simp [Cert.DNSNames, hchain, h1, h2, hcn]
  have hmem : "" ∈ cert.DNSNames := by
    rw [hdns]; simp
  have hsni : (co.set1 cert).sni "" = some cert := by
    rw [CacheSt.set1_sni]; simp [hmem]
  refine ⟨hdns, hmem, ?_⟩
  unfold CacheSt.GetSNI
  rw [hsni]

/-- Witness for C10: a concrete cert whose leaf has SAN `"www.x"` and empty
Common Name is served by `GetSNI("")` after being set into a fresh cache. -/
theorem c10_empty_common_name_registered_witness :
    ({ name := "x", certFile := { path := "x.crt", mod := 1 },
       keyFile := { path := "x.key", mod := 1 }, loaded := 2,
       chain := [some { notBefore := 0, notAfter := 9, dnsNames := ["www.x"],
                        commonName := "" }],
       leaf := some { notBefore := 0, notAfter := 9, dnsNames := ["www.x"],
                      commonName := "" } } : Cert).DNSNames = ["www.x", ""] ∧
    (CacheSt.New.set1
      { name := "x", certFile := { path := "x.crt", mod := 1 },
        keyFile := { path := "x.key", mod := 1 }, loaded := 2,
        chain := [some { notBefore := 0, notAfter := 9, dnsNames := ["www.x"],
                         commonName := "" }],
        leaf := some { notBefore := 0, notAfter := 9, dnsNames := ["www.x"],
                       commonName := "" } }).GetSNI "" =
      some { name := "x", certFile := { path := "x.crt", mod := 1 },
             keyFile := { path := "x.key", mod := 1 }, loaded := 2,
             chain := [some { notBefore := 0, notAfter := 9, dnsNames := ["www.x"],
                              commonName := "" }],
             leaf := some { notBefore := 0, notAfter := 9, dnsNames := ["www.x"],
                            commonName := "" } } := by
  have h := c10_empty_common_name_registered CacheSt.New
    { name := "x", certFile := { path := "x.crt", mod := 1 },
      keyFile := { path := "x.key", mod := 1 }, loaded := 2,
      chain := [some { notBefore := 0, notAfter := 9, dnsNames := ["www.x"],
                       commonName := "" }],
      leaf := some { notBefore := 0, notAfter := 9, dnsNames := ["www.x"],
                     commonName := "" } }
    { notBefore := 0, notAfter := 9, dnsNames := ["www.x"], commonName := "" }
    (some { notBefore := 0, notAfter := 9, dnsNames := ["www.x"], commonName := "" })
    [] rfl (Or.inl rfl) rfl
  exact ⟨h.1, h.2.2⟩

/- ### Claim C3: the published SNI snapshot is complete -/

theorem set1_sni_keeps_some (c : CacheSt) (cert : Cert) (dn : String)
    (h : ∃ cc, c.sni dn = some cc) : ∃ cc, (c.set1 cert).sni dn = some cc := by
  rw [CacheSt.set1_sni]
  by_cases hm : dn ∈ cert.DNSNames
  · exact ⟨cert, by simp [hm]⟩
  · obtain ⟨cc, hcc⟩ := h
    exact ⟨cc, by simp [hm, hcc]⟩

theorem set_sni_keeps_some :
    ∀ (ops : List (Option Cert)) (c : CacheSt) (dn : String),
      (∃ cc, c.sni dn = some cc) → ∃ cc, (c.set ops).sni dn = some cc := by
  intro ops
  induction ops with
  | nil => intro c dn h; exact h
  | cons o rest ih =>
    intro c dn h
    cases o with
    | none => exact ih c dn h
    | some cert => exact ih (c.set1 cert) dn (set1_sni_keeps_some c cert dn h)

theorem set_sni_publishes :
    ∀ (ops : List (Option Cert)) (c : CacheSt) (cert : Cert) (dn : String),
      some cert ∈ ops → dn ∈ cert.DNSNames →
      ∃ cc, (c.set ops).sni dn = some cc := by
  intro ops
  induction ops with
  | nil => intro c cert dn h; exact absurd h (List.not_mem_nil _)
  | cons o rest ih =>
    intro c cert dn hmem hdn
    rcases List.mem_cons.mp hmem with ho | ho
    · subst ho
      refine set_sni_keeps_some rest (c.set1 cert) dn ?_
      exact ⟨cert, by rw [CacheSt.set1_sni]; simp [hdn]⟩
    · cases o with
      | none => exact ih c cert dn ho hdn
      | some cert2 => exact ih (c.set1 cert2) cert dn ho hdn

/-- Claim C3: writes are serialized under the cache lock and each `set`
publishes a freshly built index by a single reference swap, so a reader's
unlocked `GetSNI`/`GetCertificate` observes the snapshot left by some prefix
of completed `Set` calls. For every such prefix `ops` containing a completed
`Set` of `cert`, the published index maps each of `cert`'s DNS names to some
certificate — no entry a completed `Set` published is ever missing — and the
read path succeeds rather than panicking or missing. -/
theorem c3_sni_snapshot_complete (c0 : CacheSt) (ops : List (Option Cert))
    (cert : Cert) (dn : String)
    (hmem : some cert ∈ ops) (hdn : dn ∈ cert.DNSNames) :
    (∃ cc, (c0.set ops).sni dn = some cc) ∧
    (c0.set ops).GetSNI dn ≠ none ∧
    (Reloader.GetCertificate (c0.set ops) dn).isOk = true := by
  obtain ⟨cc, hcc⟩ := set_sni_publishes ops c0 cert dn hmem hdn
  have hget : (c0.set ops).GetSNI dn = some cc := by
    unfold CacheSt.GetSNI
    rw [hcc]
  refine ⟨⟨cc, hcc⟩, ?_, ?_⟩
  · rw [hget]; exact Option.some_ne_none cc
  · unfold Reloader.GetCertificate
    rw [hget]
    rfl

/-- Witness for C3: after a batch setting two concrete certs (the second
overlapping the first on `"shared.x"`), every DNS name either cert published
is still served. -/
theorem c3_sni_snapshot_complete_witness :
    ((CacheSt.New.set
        [some { name := "a", certFile := { path := "a.crt", mod := 1 },
                keyFile := { path := "a.key", mod := 1 }, loaded := 2,
                chain := [some { notBefore := 0, notAfter := 9,
                                 dnsNames := ["shared.x"], commonName := "a.x" }],
                leaf := some { notBefore := 0, notAfter := 9,
                               dnsNames := ["shared.x"], commonName := "a.x" } },
         some { name := "b", certFile := { path := "b.crt", mod := 1 },
                keyFile := { path := "b.key", mod := 1 }, loaded := 2,
                chain := [some { notBefore := 0, notAfter := 9,
                                 dnsNames := ["shared.x"], commonName := "b.x" }],
                leaf := some { notBefore := 0, notAfter := 9,
                               dnsNames := ["shared.x"], commonName := "b.x" } }]).GetSNI
        "a.x" ≠ none) ∧
    ((CacheSt.New.set
        [some { name := "a", certFile := { path := "a.crt", mod := 1 },
                keyFile := { path := "a.key", mod := 1 }, loaded := 2,
                chain := [some { notBefore := 0, notAfter := 9,
                                 dnsNames := ["shared.x"], commonName := "a.x" }],
                leaf := some { notBefore := 0, notAfter := 9,
                               dnsNames := ["shared.x"], commonName := "a.x" } },
         some { name := "b", certFile := { path := "b.crt", mod := 1 },
                keyFile := { path := "b.key", mod := 1 }, loaded := 2,
                chain := [some { notBefore := 0, notAfter := 9,
                                 dnsNames := ["shared.x"], commonName := "b.x" }],
                leaf := some { notBefore := 0, notAfter := 9,
                               dnsNames := ["shared.x"], commonName := "b.x" } }]).GetSNI
        "shared.x" ≠ none) :=
  ⟨(c3_sni_snapshot_complete CacheSt.New _
      { name := "a", certFile := { path := "a.crt", mod := 1 },
        keyFile := { path := "a.key", mod := 1 }, loaded := 2,
        chain := [some { notBefore := 0, notAfter := 9,
                         dnsNames := ["shared.x"], commonName := "a.x" }],
        leaf := some { notBefore := 0, notAfter := 9,
                       dnsNames := ["shared.x"], commonName := "a.x" } }
      "a.x" (by decide) (by decide)).2.1,
   (c3_sni_snapshot_complete CacheSt.New _
      { name := "b", certFile := { path := "b.crt", mod := 1 },
        keyFile := { path := "b.key", mod := 1 }, loaded := 2,
        chain := [some { notBefore := 0, notAfter := 9,
                         dnsNames := ["shared.x"], commonName := "b.x" }],
        leaf := some { notBefore := 0, notAfter := 9,
                       dnsNames := ["shared.x"], commonName := "b.x" } }
      "shared.x" (by decide) (by decide)).2.1⟩

/- ### Claim C6: a failed Reload leaves the cache intact -/

/-- Claim C6: whenever `Cache.Reload(name)` returns an error — a stat failure,
a key-pair parse failure, an empty chain, or a leaf outside its validity
window — the call leaves both the by-name map and the DNS-name index exactly
as they were: an invalid certificate never enters the cache and whatever was
cached for that name stays in service. -/
theorem c6_reload_error_preserves_cache (fs : GoFS) (now : Int) (c : CacheSt)
    (name : String) (e : String)
    (h : (CacheSt.Reload fs now c name).2 = ReloadResult.err e) :
    (CacheSt.Reload fs now c name).1.certs = c.certs ∧
    (CacheSt.Reload fs now c name).1.sni = c.sni := by
  unfold CacheSt.Reload at h ⊢
  rcases hc : c.certs name with _ | cert
  · rcases hl : LoadCertPair fs now name 0 with e2 | _ | nc <;>
      simp only [hc, hl] at h ⊢
    · trivial
    · cases h
    · cases h
  · rcases hr : Cert.reload fs now cert with ⟨cert2, oe⟩
    rcases oe with _ | e2 <;> simp only [hc, hr] at h ⊢
    · cases h
    · trivial

/-- Witness for C6: reloading a missing name on an empty filesystem fails
with a stat error and preserves the (empty) cache maps. -/
theorem c6_reload_error_preserves_cache_witness :
    (CacheSt.Reload { stat := fun _ => none, loadX509KeyPair := fun _ _ => .error "io" }
        0 CacheSt.New "n").1.certs = CacheSt.New.certs ∧
    (CacheSt.Reload { stat := fun _ => none, loadX509KeyPair := fun _ _ => .error "io" }
        0 CacheSt.New "n").1.sni = CacheSt.New.sni :=
  c6_reload_error_preserves_cache
    { stat := fun _ => none, loadX509KeyPair := fun _ _ => .error "io" }
    0 CacheSt.New "n" "stat cert file" rfl

/- ### Claim C4: GetSNI exact-then-wildcard lookup -/

theorem wildcardForChars_concat (rest : List Char) :
    ∀ pre : List Char, '.' ∉ pre →
      wildcardForChars (pre ++ '.' :: rest) = '*' :: '.' :: rest := by
  intro pre
  induction pre with
  | nil => intro _; simp [wildcardForChars]
  | cons c pre2 ih =>
    intro h
    have hc : ¬ c = '.' := fun hcc => h (by simp [hcc])
    have h2 : '.' ∉ pre2 := fun hm => h (by simp [hm])
    simp [wildcardForChars, hc, ih h2]

theorem wildcardForChars_no_dot :
    ∀ l : List Char, '.' ∉ l → wildcardForChars l = [] := by
  intro l
  induction l with
  | nil => intro _; rfl
  | cons c rest ih =>
    intro h
    have hc : ¬ c = '.' := fun hcc => h (by simp [hcc])
    have h2 : '.' ∉ rest := fun hm => h (by simp [hm])
    simp [wildcardForChars, hc, ih h2]

/-- Claim C4, amended: `GetSNI(dnsName)` returns the exact `sni` entry when
present; on a miss it consults the entry under the wildcard obtained by
replacing everything before the first label separator with `*`
(`api.example.com` becomes `*.example.com`), returning absent when that too is
missing; a name with no separator yields no derivable wildcard and returns
absent. Contrary to the original claim's last clause, `example.com` does have
a derivable wildcard (`*.com`), so `GetSNI("example.com")` falls back to a
`*.com` entry when one exists (see the counterexample). -/
theorem c4_getsni_amended (c : CacheSt) (name : String) :
    (∀ cert, c.sni name = some cert → c.GetSNI name = some cert) ∧
    (c.sni name = none →
      c.GetSNI name =
        if (WildcardFor name).length = 0 then none else c.sni (WildcardFor name)) ∧
    (∀ pre rest, name.data = pre ++ '.' :: rest → '.' ∉ pre →
      WildcardFor name = String.mk ('*' :: '.' :: rest)) ∧
    ('.' ∉ name.data →
      WildcardFor name = "" ∧ (c.sni name = none → c.GetSNI name = none)) ∧
    WildcardFor "api.example.com" = "*.example.com" := by
  refine ⟨?_, ?_, ?_, ?_, by decide⟩
  · intro cert h
    unfold CacheSt.GetSNI
    rw [h]
  · intro h
    unfold CacheSt.GetSNI
    rw [h]
  · intro pre rest hdata hpre
    unfold WildcardFor
    rw [hdata, wildcardForChars_concat rest pre hpre]
  · intro h
    have hw : WildcardFor name = "" := by
      unfold WildcardFor
      rw [wildcardForChars_no_dot name.data h]
    refine ⟨hw, ?_⟩
    intro hnone
    unfold CacheSt.GetSNI
    rw [hnone]
    simp [hw]

/-- Witness for C4: a bare name with no separator derives no wildcard and
misses in the empty cache. -/
theorem c4_getsni_amended_witness :
    WildcardFor "localhost" = "" ∧ CacheSt.New.GetSNI "localhost" = none :=
  ⟨((c4_getsni_amended CacheSt.New "localhost").2.2.2.1 (by decide)).1,
   ((c4_getsni_amended CacheSt.New "localhost").2.2.2.1 (by decide)).2 rfl⟩

/-- Counterexample for C4: the claim says `GetSNI("example.com")` (no
sub-label) never falls back to a wildcard. In the source,
`WildcardFor("example.com") = "*.com"`, so with a `*.com` certificate cached
and no exact entry, `GetSNI("example.com")` returns that certificate rather
than absent. -/
theorem c4_example_com_wildcard_counterexample :
    WildcardFor "example.com" = "*.com" ∧
    (CacheSt.New.set1 starComCert).sni "example.com" = none ∧
    (CacheSt.New.set1 starComCert).GetSNI "example.com" = some starComCert := by
  decide

/- ### Claim C5: LoadCertPair's staleness cutoff -/

/-- Claim C5, amended: `LoadCertPair(name, cutoff)` errors when either
`name.crt` or `name.key` cannot be statted; returns nil result and nil error
(no update) when both modification times are strictly before the cutoff
(the source tests `cutoff.After(mod)`, which is strict, so a file whose
modification time equals the cutoff is reloaded — see the counterexample);
otherwise it parses the key pair and rejects an empty chain and a leaf whose
`NotBefore..NotAfter` window does not contain the current time, and returns
the loaded `Cert` otherwise. -/
theorem c5_load_cert_pair_amended (fs : GoFS) (now : Int) (name : String)
    (cutoff : Int) :
    (fs.stat (name ++ ".crt") = none →
      LoadCertPair fs now name cutoff = .err "stat cert file") ∧
    (∀ cm, fs.stat (name ++ ".crt") = some cm → fs.stat (name ++ ".key") = none →
      LoadCertPair fs now name cutoff = .err "stat key file") ∧
    (∀ cm km, fs.stat (name ++ ".crt") = some cm →
      fs.stat (name ++ ".key") = some km → cm < cutoff → km < cutoff →
      LoadCertPair fs now name cutoff = .noUpdate) ∧
    (∀ cm km, fs.stat (name ++ ".crt") = some cm →
      fs.stat (name ++ ".key") = some km → ¬(cm < cutoff ∧ km < cutoff) →
      fs.loadX509KeyPair (name ++ ".crt") (name ++ ".key") = .ok [] →
      LoadCertPair fs now name cutoff = .err "no certs parsed") ∧
    (∀ cm km x rest, fs.stat (name ++ ".crt") = some cm →
      fs.stat (name ++ ".key") = some km → ¬(cm < cutoff ∧ km < cutoff) →
      fs.loadX509KeyPair (name ++ ".crt") (name ++ ".key") = .ok (some x :: rest) →
      (now > x.notAfter ∨ now < x.notBefore) →
      LoadCertPair fs now name cutoff = .err "invalid cert parsed") ∧
    (∀ cm km x rest, fs.stat (name ++ ".crt") = some cm →
      fs.stat (name ++ ".key") = some km → ¬(cm < cutoff ∧ km < cutoff) →
      fs.loadX509KeyPair (name ++ ".crt") (name ++ ".key") = .ok (some x :: rest) →
      x.notBefore ≤ now → now ≤ x.notAfter →
      LoadCertPair fs now name cutoff =
        .loaded { name := name
                  certFile := { path := name ++ ".crt", mod := cm }
                  keyFile := { path := name ++ ".key", mod := km }
                  loaded := now
                  chain := some x :: rest
                  leaf := some x }) := by
  refine ⟨?_, ?_, ?_, ?_, ?_, ?_⟩
  · intro h1
    simp only [LoadCertPair, h1]
  · intro cm h1 h2
    simp only [LoadCertPair, h1, h2]
  · intro cm km h1 h2 h3 h4
    simp only [LoadCertPair, h1, h2]
    rw [if_pos ⟨h3, h4⟩]
  · intro cm km h1 h2 hno hkp
    simp only [LoadCertPair, h1, h2]
    rw [if_neg hno]
    simp only [hkp]
  · intro cm km x rest h1 h2 hno hkp hw
    simp only [LoadCertPair, h1, h2]
    rw [if_neg hno]
    simp only [hkp]
    rw [if_pos hw]
  · intro cm km x rest h1 h2 hno hkp hnb hna
    simp only [LoadCertPair, h1, h2]
    rw [if_neg hno]
    simp only [hkp]
    rw [if_neg (by intro hcon; rcases hcon with hc | hc <;> omega)]

/-- Witness for C5: with both modification times strictly before the cutoff,
the pair reports "no update". -/
theorem c5_load_cert_pair_amended_witness :
    LoadCertPair fsModsOne 7 "n" 5 = .noUpdate :=
  (c5_load_cert_pair_amended fsModsOne 7 "n" 5).2.2.1 1 1 (by decide) (by decide)
    (by decide) (by decide)

/-- Counterexample for C5: the claim says that when both modification times
are *not after* the cutoff the call returns nil result and nil error. With
both modification times equal to the cutoff (5, not after 5), the source's
strict `cutoff.After(mod)` test fails and the pair is reloaded: the call
returns a loaded `Cert`, not "no update". -/
theorem c5_cutoff_boundary_counterexample :
    fsBoundary.stat "n.crt" = some 5 ∧
    fsBoundary.stat "n.key" = some 5 ∧
    ¬((5 : Int) > 5) ∧
    LoadCertPair fsBoundary 7 "n" 5 ≠ .noUpdate ∧
    LoadCertPair fsBoundary 7 "n" 5 =
      .loaded { name := "n"
                certFile := { path := "n.crt", mod := 5 }
                keyFile := { path := "n.key", mod := 5 }
                loaded := 7
                chain := [some { notBefore := 0, notAfter := 9,
                                 dnsNames := ["www.n"], commonName := "n" }]
                leaf := some { notBefore := 0, notAfter := 9,
                               dnsNames := ["www.n"], commonName := "n" } } := by
  decide

/- ### Claim C7: Reload idempotence -/

/-- Claim C7, amended: for a name already loaded in the cache whose `Loaded`
watermark is after both on-disk modification times (the state a completed load
leaves behind when the files have not changed), two consecutive
`Cache.Reload(name)` calls against the same filesystem both return success;
the second call changes neither map, and the first call's only effect on the
DNS index is to point the name's own DNS entries back at its certificate —
every other entry is untouched. (The original claim's stronger "no observable
change at all" fails when another certificate had overwritten one of those
entries — see the counterexample.) -/
theorem c7_reload_idempotent_amended (fs : GoFS) (now : Int) (c : CacheSt)
    (name : String) (cert : Cert) (cm km : Int)
    (hc : c.certs name = some cert)
    (hcm : fs.stat (cert.name ++ ".crt") = some cm)
    (hkm : fs.stat (cert.name ++ ".key") = some km)
    (h1 : cm < cert.loaded) (h2 : km < cert.loaded) :
    (CacheSt.Reload fs now c name).2 = ReloadResult.ok true ∧
    (CacheSt.Reload fs now (CacheSt.Reload fs now c name).1 name).2 =
      ReloadResult.ok true ∧
    (∀ k, (CacheSt.Reload fs now (CacheSt.Reload fs now c name).1 name).1.certs k =
      (CacheSt.Reload fs now c name).1.certs k) ∧
    (∀ k, (CacheSt.Reload fs now (CacheSt.Reload fs now c name).1 name).1.sni k =
      (CacheSt.Reload fs now c name).1.sni k) ∧
    (∀ dn, dn ∉ cert.DNSNames → (CacheSt.Reload fs now c name).1.sni dn = c.sni dn) ∧
    (∀ dn, dn ∈ cert.DNSNames →
      (CacheSt.Reload fs now c name).1.sni dn = some cert) := by
  have hload : LoadCertPair fs now cert.name cert.loaded = .noUpdate := by
    simp only [LoadCertPair, hcm, hkm]
    rw [if_pos ⟨h1, h2⟩]
  have hrel : Cert.reload fs now cert = (cert, none) := by
    simp only [Cert.reload, hload]
  have hR1 : CacheSt.Reload fs now c name = (c.set1 cert, ReloadResult.ok true) := by
    simp only [CacheSt.Reload, hc, hrel]
  have hs1certs : (c.set1 cert).certs name = some cert := by
    rw [CacheSt.set1_certs]
    by_cases h : name = cert.name <;> simp [h, hc]
  have hR2 : CacheSt.Reload fs now (c.set1 cert) name =
      ((c.set1 cert).set1 cert, ReloadResult.ok true) := by
    simp only [CacheSt.Reload, hs1certs, hrel]
  rw [hR1]
  simp only [hR2]
  refine ⟨by trivial, by trivial, ?_, ?_, ?_, ?_⟩
  · intro k
    rw [CacheSt.set1_certs, CacheSt.set1_certs]
    by_cases h : k = cert.name <;> simp [h]
  · intro k
    rw [CacheSt.set1_sni ((c.set1 cert)) cert k, CacheSt.set1_sni c cert k]
    by_cases h : k ∈ cert.DNSNames
    · simp [h]
    · simp [h, CacheSt.set1_sni, CacheSt.set1_sni c cert k]
  · intro dn hdn
    rw [CacheSt.set1_sni]
    simp [hdn]
  · intro dn hdn
    rw [CacheSt.set1_sni]
    simp [hdn]

/-- Witness for C7: reloading `n` twice over `fsModsOne` (both files last
modified at 1, before the watermark 5) succeeds and re-points `www.n` at the
certificate. -/
theorem c7_reload_idempotent_amended_witness :
    (CacheSt.Reload fsModsOne 6 (CacheSt.New.set1 reloadedCert) "n").2 =
      ReloadResult.ok true ∧
    (CacheSt.Reload fsModsOne 6 (CacheSt.New.set1 reloadedCert) "n").1.sni "www.n" =
      some reloadedCert :=
  ⟨(c7_reload_idempotent_amended fsModsOne 6 (CacheSt.New.set1 reloadedCert) "n"
      reloadedCert 1 1 (by decide) (by decide) (by decide) (by decide) (by decide)).1,
   (c7_reload_idempotent_amended fsModsOne 6 (CacheSt.New.set1 reloadedCert) "n"
      reloadedCert 1 1 (by decide) (by decide) (by decide) (by decide) (by decide)).2.2.2.2.2
     "www.n" (by decide)⟩

/-- Counterexample for C7: `a` is already loaded, nothing on disk changes, yet
calling `Cache.Reload("a")` twice visibly changes the DNS index: certificate
`b` (set after `a`) owned the shared entry `x` before the calls, and `a` owns
it afterwards — the lookup returns different certificate data before and
after, with both calls succeeding. -/
theorem c7_reload_twice_counterexample :
    ((CacheSt.New.set1 overlapCertA).set1 overlapCertB).certs "a" = some overlapCertA ∧
    ((CacheSt.New.set1 overlapCertA).set1 overlapCertB).GetSNI "x" = some overlapCertB ∧
    (CacheSt.Reload fsOverlap 6
        ((CacheSt.New.set1 overlapCertA).set1 overlapCertB) "a").2 =
      ReloadResult.ok true ∧
    (CacheSt.Reload fsOverlap 6
        (CacheSt.Reload fsOverlap 6
          ((CacheSt.New.set1 overlapCertA).set1 overlapCertB) "a").1 "a").2 =
      ReloadResult.ok true ∧
    (CacheSt.Reload fsOverlap 6
        (CacheSt.Reload fsOverlap 6
          ((CacheSt.New.set1 overlapCertA).set1 overlapCertB) "a").1 "a").1.GetSNI "x" =
      some overlapCertA ∧
    overlapCertA ≠ overlapCertB := by
  decide

/- ### Claim C8: directory normalization and ancestor pruning -/

theorem subdir_length (a b : GoPath) (h : Subdir a b) : a.length < b.length := by
  obtain ⟨rest, hr⟩ := h
  subst hr
  simp [List.length_append]

theorem subdir_take (b : GoPath) (i : Nat) (hi : i < b.length)
    (hc : b.get? i = some '/') : Subdir (b.take i) b := by
  refine ⟨b.drop (i + 1), ?_⟩
  conv_lhs => rw [← List.take_append_drop i b]
  congr 1
  rw [List.drop_eq_get_cons hi]
  congr 1
  rw [List.get?_eq_get hi] at hc
  exact Option.some_injective _ hc

theorem subdir_exists_index (a b : GoPath) (h : Subdir a b) :
    a.length < b.length ∧ b.get? a.length = some '/' ∧ b.take a.length = a := by
  obtain ⟨rest, hr⟩ := h
  subst hr
  refine ⟨?_, ?_, ?_⟩
  · simp
  · rw [List.get?_append_right (le_refl _)]
    simp
  · exact List.take_left a _

theorem isSubdirOf_iff (s : List GoPath) (d : GoPath) :
    isSubdirOf s d = true ↔ d ∈ s ∨ ∃ e, e ∈ s ∧ Subdir e d := by
  unfold isSubdirOf
  rw [Bool.or_eq_true, List.any_eq_true]
  simp only [List.mem_range, Bool.and_eq_true, decide_eq_true_eq]
  constructor
  · rintro (h | ⟨i, hi, hsl, hmem⟩)
    · exact Or.inl h
    · exact Or.inr ⟨d.take i, hmem, subdir_take d i hi hsl⟩
  · rintro (h | ⟨e, hmem, hsub⟩)
    · exact Or.inl h
    · obtain ⟨hlt, hget, htake⟩ := subdir_exists_index e d hsub
      refine Or.inr ⟨e.length, hlt, hget, ?_⟩
      rw [htake]
      exact hmem

theorem mem_insertByLen (d a : GoPath) :
    ∀ l, a ∈ insertByLen d l ↔ a = d ∨ a ∈ l := by
  intro l
  induction l with
  | nil => simp [insertByLen]
  | cons e rest ih =>
    unfold insertByLen
    by_cases h : d.length < e.length
    · rw [if_pos h]
      simp only [List.mem_cons]
    · rw [if_neg h]
      simp only [List.mem_cons, ih]
      tauto

theorem pairwise_insertByLen (d : GoPath) :
    ∀ l, List.Pairwise lenLE l → List.Pairwise lenLE (insertByLen d l) := by
  intro l
  induction l with
  | nil => intro _; exact List.pairwise_singleton _ _
  | cons e rest ih =>
    intro hp
    rcases List.pairwise_cons.mp hp with ⟨he, hrest⟩
    unfold insertByLen
    by_cases h : d.length < e.length
    · rw [if_pos h]
      refine List.pairwise_cons.mpr ⟨?_, hp⟩
      intro x hx
      rcases List.mem_cons.mp hx with rfl | hx
      · exact Nat.le_of_lt h
      · exact Nat.le_trans (Nat.le_of_lt h) (he x hx)
    · rw [if_neg h]
      refine List.pairwise_cons.mpr ⟨?_, ih hrest⟩
      intro x hx
      rcases (mem_insertByLen d x rest).mp hx with rfl | hx
      · exact Nat.le_of_not_lt h
      · exact he x hx

theorem mem_sortByLen (a : GoPath) : ∀ l, a ∈ sortByLen l ↔ a ∈ l := by
  intro l
  induction l with
  | nil => simp [sortByLen]
  | cons d rest ih =>
    unfold sortByLen at ih ⊢
    simp only [List.foldr_cons]
    rw [mem_insertByLen, ih, List.mem_cons]

theorem pairwise_sortByLen (l : List GoPath) : List.Pairwise lenLE (sortByLen l) := by
  induction l with
  | nil => exact List.Pairwise.nil
  | cons d rest ih =>
    unfold sortByLen at ih ⊢
    simp only [List.foldr_cons]
    exact pairwise_insertByLen d _ ih

theorem trimTrailing_eq_self (d : GoPath) (h : d.getLast? ≠ some '/') :
    trimTrailing d = d := by
  unfold trimTrailing
  have hfix : d.reverse.dropWhile (fun c => decide (c = '/')) = d.reverse := by
    cases hr : d.reverse with
    | nil => rfl
    | cons c t =>
      have hc : d.getLast? = some c := by
        rw [← List.head?_reverse, hr]
        rfl
      have hcs : ¬ (c = '/') := fun hh => h (by rw [hc, hh])
      rw [List.dropWhile_cons]
      simp [hcs]
  rw [hfix, List.reverse_reverse]

theorem goLast_mem (l : GoPath) (a : Char) (h : l.getLast? = some a) : a ∈ l := by
  cases l with
  | nil => simp at h
  | cons x xs =>
    rw [List.getLast?_eq_getLast (x :: xs) (by simp)] at h
    have hmem := List.getLast_mem (l := x :: xs) (by simp)
    rwa [Option.some_inj.mp h] at hmem

theorem goLast_exists (l : GoPath) (h : l ≠ []) : ∃ a, l.getLast? = some a := by
  cases l with
  | nil => exact absurd rfl h
  | cons x xs => exact ⟨(x :: xs).getLast (by simp), List.getLast?_eq_getLast _ _⟩

theorem absClean_two_le (d : GoPath) (h : AbsClean d) : 2 ≤ d.length := by
  rcases d with _ | ⟨c, _ | ⟨c2, t⟩⟩
  · simp [AbsClean] at h
  · rcases h with ⟨h1, h2⟩
    simp at h1
    subst h1
    simp [List.getLast?] at h2
  · simp

theorem segsOf_ne_nil : ∀ p : GoPath, segsOf p ≠ [] := by
  intro p
  cases p with
  | nil => simp [segsOf]
  | cons c rest =>
    unfold segsOf
    by_cases h : c = '/' <;> simp [h]

theorem segsOf_no_slash : ∀ (p : GoPath), ∀ s ∈ segsOf p, '/' ∉ s := by
  intro p
  induction p with
  | nil =>
    intro s hs
    simp [segsOf] at hs
    subst hs
    simp
  | cons c rest ih =>
    intro s hs
    unfold segsOf at hs
    by_cases h : c = '/'
    · rw [if_pos h] at hs
      rcases List.mem_cons.mp hs with rfl | hs
      · simp
      · exact ih s hs
    · rw [if_neg h] at hs
      rcases List.mem_cons.mp hs with rfl | hs
      · intro hmem
        rcases List.mem_cons.mp hmem with h2 | h2
        · exact h h2.symm
        · have hne := segsOf_ne_nil rest
          have hmem2 : (segsOf rest).headI ∈ segsOf rest := by
            cases hh : segsOf rest with
            | nil => exact absurd hh hne
            | cons a as => simp [List.headI]
          exact ih _ hmem2 h2
      · exact ih s (List.mem_of_mem_tail hs)

theorem procSegs_good :
    ∀ (l acc : List GoPath),
      (∀ s ∈ acc, s ≠ [] ∧ '/' ∉ s) →
      (∀ s ∈ l, '/' ∉ s) →
      ∀ s ∈ procSegs acc l, s ≠ [] ∧ '/' ∉ s := by
  intro l
  induction l with
  | nil =>
    intro acc hacc _ s hs
    simp only [procSegs] at hs
    exact hacc s hs
  | cons seg rest ih =>
    intro acc hacc hl s hs
    have hl2 : ∀ t ∈ rest, '/' ∉ t := fun t ht => hl t (List.mem_cons_of_mem seg ht)
    unfold procSegs at hs
    by_cases h1 : seg = []
    · rw [if_pos h1] at hs
      exact ih acc hacc hl2 s hs
    · rw [if_neg h1] at hs
      by_cases h2 : seg = ['.']
      · rw [if_pos h2] at hs
        exact ih acc hacc hl2 s hs
      · rw [if_neg h2] at hs
        by_cases h3 : seg = ['.', '.']
        · rw [if_pos h3] at hs
          exact ih acc.dropLast
            (fun t ht => hacc t ((List.dropLast_sublist acc).subset ht)) hl2 s hs
        · rw [if_neg h3] at hs
          refine ih (acc ++ [seg]) ?_ hl2 s hs
          intro t ht
          rcases List.mem_append.mp ht with ht | ht
          · exact hacc t ht
          · rw [List.mem_singleton.mp ht]
            exact ⟨h1, hl seg (List.mem_cons_self seg rest)⟩

theorem joinSlash_getLast :
    ∀ (segs : List GoPath), segs ≠ [] → (∀ s ∈ segs, s ≠ [] ∧ '/' ∉ s) →
      joinSlash segs ≠ [] ∧ (joinSlash segs).getLast? ≠ some '/' := by
  intro segs
  induction segs with
  | nil => intro h _; exact absurd rfl h
  | cons s rest ih =>
    intro _ hgood
    have hs := hgood s (List.mem_cons_self s rest)
    cases rest with
    | nil =>
      refine ⟨hs.1, ?_⟩
      show s.getLast? ≠ some '/'
      intro hlast
      exact hs.2 (goLast_mem s '/' hlast)
    | cons r rs =>
      obtain ⟨hJne, hJlast⟩ := ih (by simp) (fun t ht => hgood t (List.mem_cons_of_mem s ht))
      obtain ⟨a, ha⟩ := goLast_exists _ hJne
      have hane : a ≠ '/' := fun hh => hJlast (by rw [ha, hh])
      have hshape : joinSlash (s :: r :: rs) = s ++ '/' :: joinSlash (r :: rs) := rfl
      constructor
      · rw [hshape]
        simp
      · rw [hshape, List.getLast?_append]
        have h2 : ('/' :: joinSlash (r :: rs)).getLast? = some a := by
          cases hj : joinSlash (r :: rs) with
          | nil => exact absurd hj hJne
          | cons b bs =>
            rw [List.getLast?_cons_cons, ← hj, ha]
        rw [h2]
        intro hcon
        exact hane (Option.some_inj.mp hcon)

theorem goCleanRooted_shape (p : GoPath) :
    goCleanRooted p = ['/'] ∨ AbsClean (goCleanRooted p) := by
  unfold goCleanRooted
  cases h : procSegs [] (segsOf p) with
  | nil => exact Or.inl rfl
  | cons s rest =>
    right
    have hgood : ∀ t ∈ s :: rest, t ≠ [] ∧ '/' ∉ t := by
      intro t ht
      rw [← h] at ht
      exact procSegs_good (segsOf p) [] (by simp) (segsOf_no_slash p) t ht
    obtain ⟨hne, hlast⟩ := joinSlash_getLast (s :: rest) (by simp) hgood
    refine ⟨rfl, ?_⟩
    show List.getLast? ('/' :: joinSlash (s :: rest)) ≠ some '/'
    cases hj : joinSlash (s :: rest) with
    | nil => exact absurd hj hne
    | cons b bs =>
      rw [hj] at hlast
      rw [List.getLast?_cons_cons]
      exact hlast

theorem goAbs_shape (wd p : GoPath) : goAbs wd p = ['/'] ∨ AbsClean (goAbs wd p) := by
  unfold goAbs
  by_cases h : p.head? = some '/'
  · rw [if_pos h]
    exact goCleanRooted_shape p
  · rw [if_neg h]
    exact goCleanRooted_shape _

theorem goAbs_ne_nil (wd p : GoPath) : goAbs wd p ≠ [] := by
  rcases goAbs_shape wd p with h | h
  · rw [h]
    simp
  · intro hn
    rw [hn] at h
    simp [AbsClean] at h

theorem rsLoop_spec :
    ∀ (rem s : List GoPath),
      (∀ e ∈ s, e = [] ∨ AbsClean e) →
      (∀ e ∈ s, ∀ f ∈ s, ¬ Subdir e f) →
      (∀ d ∈ rem, d = [] ∨ d = ['/'] ∨ AbsClean d) →
      (∀ e ∈ s, ∀ d ∈ rem, e.length ≤ d.length) →
      List.Pairwise lenLE rem →
      (∀ e ∈ s, e ∈ rsLoop s rem) ∧
      (∀ e ∈ rsLoop s rem, e = [] ∨ AbsClean e) ∧
      (∀ e ∈ rsLoop s rem, ∀ f ∈ rsLoop s rem, ¬ Subdir e f) ∧
      (∀ d ∈ rem, d ≠ [] →
        ∃ e ∈ rsLoop s rem, e = trimTrailing d ∨ Subdir e (trimTrailing d)) ∧
      (∀ e ∈ rsLoop s rem, e ∈ s ∨ ∃ d ∈ rem, e = trimTrailing d) := by
  intro rem
  induction rem with
  | nil =>
    intro s hs1 hs2 _ _ _
    exact ⟨fun e he => he, hs1, hs2, by simp, fun e he => Or.inl he⟩
  | cons d rest ih =>
    intro s hs1 hs2 hrem hlen hpw
    have hrem2 : ∀ x ∈ rest, x = [] ∨ x = ['/'] ∨ AbsClean x :=
      fun x hx => hrem x (List.mem_cons_of_mem d hx)
    have hpw2 : List.Pairwise lenLE rest := (List.pairwise_cons.mp hpw).2
    have hdrest : ∀ x ∈ rest, lenLE d x := (List.pairwise_cons.mp hpw).1
    have hlen2 : ∀ e ∈ s, ∀ x ∈ rest, e.length ≤ x.length :=
      fun e he x hx => hlen e he x (List.mem_cons_of_mem d hx)
    rcases hrem d (List.mem_cons_self d rest) with hd0 | hd1 | hd2
    · -- an empty entry: skipped by the length-0 check
      subst hd0
      have hstep : rsLoop s ([] :: rest) = rsLoop s rest := by
        simp only [rsLoop]
        rw [if_pos (show ([] : GoPath).length = 0 from rfl)]
      rw [hstep]
      obtain ⟨mono, habs, hnosub, hcover, horig⟩ := ih s hs1 hs2 hrem2 hlen2 hpw2
      refine ⟨mono, habs, hnosub, ?_, ?_⟩
      · intro x hx hxne
        rcases List.mem_cons.mp hx with rfl | hx
        · exact absurd rfl hxne
        · exact hcover x hx hxne
      · intro e he
        rcases horig e he with h | ⟨d2, hd2m, he2⟩
        · exact Or.inl h
        · exact Or.inr ⟨d2, List.mem_cons_of_mem _ hd2m, he2⟩
    · -- the cleaned root: trims to the empty path
      subst hd1
      have hlen0 : ¬ (['/'] : GoPath).length = 0 := by decide
      have htrim : trimTrailing ['/'] = [] := by decide
      by_cases hsub : isSubdirOf s ['/'] = true
      · have hstep : rsLoop s (['/'] :: rest) = rsLoop s rest := by
          simp only [rsLoop]
          rw [if_neg hlen0, if_pos hsub]
        rw [hstep]
        obtain ⟨mono, habs, hnosub, hcover, horig⟩ := ih s hs1 hs2 hrem2 hlen2 hpw2
        refine ⟨mono, habs, hnosub, ?_, ?_⟩
        swap
        · intro e he
          rcases horig e he with h | ⟨d2, hd2m, he2⟩
          · exact Or.inl h
          · exact Or.inr ⟨d2, List.mem_cons_of_mem _ hd2m, he2⟩
        intro x hx hxne
        rcases List.mem_cons.mp hx with rfl | hx
        · rcases (isSubdirOf_iff s ['/']).mp hsub with hmem | ⟨e, hmem, hsd⟩
          · rcases hs1 _ hmem with h | h
            · exact absurd h (by decide)
            · exact absurd (by decide : (['/'] : GoPath).getLast? = some '/') h.2
          · have hl := subdir_length e ['/'] hsd
            simp only [List.length_singleton] at hl
            have he0 : e = [] := List.length_eq_zero.mp (by omega)
            refine ⟨e, mono e hmem, Or.inl ?_⟩
            rw [he0, htrim]
        · exact hcover x hx hxne
      · have hnil_not : ([] : GoPath) ∉ s := fun hmem =>
          hsub ((isSubdirOf_iff s ['/']).mpr (Or.inr ⟨[], hmem, ⟨[], rfl⟩⟩))
        have hseq : s = [] := by
          rw [List.eq_nil_iff_forall_not_mem]
          intro e hmem
          rcases hs1 e hmem with h | h
          · rw [h] at hmem
            exact hnil_not hmem
          · have h2 := absClean_two_le e h
            have h3 := hlen e hmem ['/'] (List.mem_cons_self _ _)
            simp only [List.length_singleton] at h3
            omega
        subst hseq
        have hstep : rsLoop [] (['/'] :: rest) = rsLoop [[]] rest := by
          simp only [rsLoop]
          rw [if_neg hlen0, if_neg hsub, htrim, if_neg (by simp), List.nil_append]
        rw [hstep]
        have hs1c : ∀ e ∈ [([] : GoPath)], e = [] ∨ AbsClean e := by
          intro e he
          rw [List.mem_singleton.mp he]
          exact Or.inl rfl
        have hs2c : ∀ e ∈ [([] : GoPath)], ∀ f ∈ [([] : GoPath)], ¬ Subdir e f := by
          intro e he f hf hsd
          rw [List.mem_singleton.mp he] at hsd
          rw [List.mem_singleton.mp hf] at hsd
          obtain ⟨r, hr⟩ := hsd
          simp at hr
        have hlen2c : ∀ e ∈ [([] : GoPath)], ∀ x ∈ rest, e.length ≤ x.length := by
          intro e he x hx
          rw [List.mem_singleton.mp he]
          simp
        obtain ⟨mono, habs, hnosub, hcover, horig⟩ := ih [[]] hs1c hs2c hrem2 hlen2c hpw2
        refine ⟨?_, habs, hnosub, ?_, ?_⟩
        · intro e he
          exact absurd he (List.not_mem_nil e)
        · intro x hx hxne
          rcases List.mem_cons.mp hx with rfl | hx
          · refine ⟨[], mono [] (List.mem_singleton.mpr rfl), Or.inl ?_⟩
            rw [htrim]
          · exact hcover x hx hxne
        · intro e he
          rcases horig e he with h | ⟨d2, hd2m, he2⟩
          · refine Or.inr ⟨['/'], List.mem_cons_self _ _, ?_⟩
            rw [List.mem_singleton.mp h, htrim]
          · exact Or.inr ⟨d2, List.mem_cons_of_mem _ hd2m, he2⟩
    · -- an absolute non-root entry: already trimmed
      have hd_ne : d ≠ [] := by
        intro h
        rw [h] at hd2
        simp [AbsClean] at hd2
      have hlen0 : ¬ d.length = 0 := fun h => hd_ne (List.length_eq_zero.mp h)
      have htrim : trimTrailing d = d := trimTrailing_eq_self d hd2.2
      by_cases hsub : isSubdirOf s d = true
      · have hstep : rsLoop s (d :: rest) = rsLoop s rest := by
          simp only [rsLoop]
          rw [if_neg hlen0, if_pos hsub]
        rw [hstep]
        obtain ⟨mono, habs, hnosub, hcover, horig⟩ := ih s hs1 hs2 hrem2 hlen2 hpw2
        refine ⟨mono, habs, hnosub, ?_, ?_⟩
        · intro x hx hxne
          rcases List.mem_cons.mp hx with rfl | hx
          · rw [htrim]
            rcases (isSubdirOf_iff s x).mp hsub with hmem | ⟨e, hmem, hs⟩
            · exact ⟨x, mono x hmem, Or.inl rfl⟩
            · exact ⟨e, mono e hmem, Or.inr hs⟩
          · exact hcover x hx hxne
        · intro e he
          rcases horig e he with h | ⟨d2, hd2m, he2⟩
          · exact Or.inl h
          · exact Or.inr ⟨d2, List.mem_cons_of_mem _ hd2m, he2⟩
      · have hdns : d ∉ s := fun hmem => hsub ((isSubdirOf_iff s d).mpr (Or.inl hmem))
        have hnosubd : ∀ e ∈ s, ¬ Subdir e d := fun e he hs =>
          hsub ((isSubdirOf_iff s d).mpr (Or.inr ⟨e, he, hs⟩))
        have hstep : rsLoop s (d :: rest) = rsLoop (s ++ [d]) rest := by
          simp only [rsLoop]
          rw [if_neg hlen0, if_neg hsub, htrim, if_neg hdns]
        rw [hstep]
        have hlelen : ∀ e ∈ s, e.length ≤ d.length :=
          fun e he => hlen e he d (List.mem_cons_self d rest)
        have hs1b : ∀ e ∈ s ++ [d], e = [] ∨ AbsClean e := by
          intro e he
          rcases List.mem_append.mp he with he | he
          · exact hs1 e he
          · rw [List.mem_singleton.mp he]
            exact Or.inr hd2
        have hs2b : ∀ e ∈ s ++ [d], ∀ f ∈ s ++ [d], ¬ Subdir e f := by
          intro e he f hf hsub2
          rcases List.mem_append.mp he with he | he <;>
            rcases List.mem_append.mp hf with hf | hf
          · exact hs2 e he f hf hsub2
          · rw [List.mem_singleton.mp hf] at hsub2
            exact hnosubd e he hsub2
          · have hde : e = d := List.mem_singleton.mp he
            have h1 := subdir_length e f hsub2
            have h2 := hlelen f hf
            rw [hde] at h1
            omega
          · have hde : e = d := List.mem_singleton.mp he
            have hdf : f = d := List.mem_singleton.mp hf
            have h1 := subdir_length e f hsub2
            rw [hde, hdf] at h1
            omega
        have hlen2b : ∀ e ∈ s ++ [d], ∀ x ∈ rest, e.length ≤ x.length := by
          intro e he x hx
          rcases List.mem_append.mp he with he | he
          · exact hlen2 e he x hx
          · rw [List.mem_singleton.mp he]
            exact hdrest x hx
        obtain ⟨mono, habs, hnosub, hcover, horig⟩ := ih (s ++ [d]) hs1b hs2b hrem2 hlen2b hpw2
        refine ⟨?_, habs, hnosub, ?_, ?_⟩
        · intro e he
          exact mono e (List.mem_append.mpr (Or.inl he))
        · intro x hx hxne
          rcases List.mem_cons.mp hx with rfl | hx
          · rw [htrim]
            exact ⟨x, mono x (List.mem_append.mpr (Or.inr (List.mem_singleton.mpr rfl))),
              Or.inl rfl⟩
          · exact hcover x hx hxne
        · intro e he
          rcases horig e he with h | ⟨d2, hd2m, he2⟩
          · rcases List.mem_append.mp h with h | h
            · exact Or.inl h
            · refine Or.inr ⟨d, List.mem_cons_self _ _, ?_⟩
              rw [List.mem_singleton.mp h, htrim]
          · exact Or.inr ⟨d2, List.mem_cons_of_mem _ hd2m, he2⟩

/-- Claim C8, amended: for every working directory (absolute, as the OS
guarantees) and every input directory list, construction normalizes the list:
each surviving directory is in absolute, cleaned form with trailing
separators trimmed — except that the root directory degenerates to the empty
string (see the counterexample) — no output element is a sub-path of another
output element, and every nonempty input directory's normalization (its
absolute cleaned form, trailing separator trimmed) either appears in the
output or has a strict ancestor in the output, the shortest/ancestor path
winning. -/
theorem c8_remove_subdirectories_amended (wd : GoPath) (dirs : List GoPath)
    (_hwd : wd.head? = some '/') :
    (∀ e ∈ RemoveSubdirectories wd dirs,
      e = [] ∨ (AbsClean e ∧ ∃ d ∈ dirs, e = trimTrailing (goAbs wd d))) ∧
    (∀ e ∈ RemoveSubdirectories wd dirs, ∀ f ∈ RemoveSubdirectories wd dirs,
      ¬ Subdir e f) ∧
    (∀ d ∈ dirs, d ≠ [] →
      ∃ e ∈ RemoveSubdirectories wd dirs,
        e = trimTrailing (goAbs wd d) ∨ Subdir e (trimTrailing (goAbs wd d))) := by
  have hremP : ∀ x ∈ sortByLen (dirs.map fun d => if d.length = 0 then d else goAbs wd d),
      x = [] ∨ x = ['/'] ∨ AbsClean x := by
    intro x hx
    have hx2 := (mem_sortByLen x _).mp hx
    obtain ⟨d, _, hfd⟩ := List.mem_map.mp hx2
    by_cases h0 : d.length = 0
    · rw [if_pos h0] at hfd
      refine Or.inl ?_
      rw [← hfd]
      exact List.length_eq_zero.mp h0
    · rw [if_neg h0] at hfd
      rcases goAbs_shape wd d with h | h
      · exact Or.inr (Or.inl (by rw [← hfd, h]))
      · refine Or.inr (Or.inr ?_)
        rw [← hfd]
        exact h
  have hspec := rsLoop_spec
    (sortByLen (dirs.map fun d => if d.length = 0 then d else goAbs wd d)) []
    (by simp) (by simp) hremP (by simp)
    (pairwise_sortByLen _)
  refine ⟨?_, hspec.2.2.1, ?_⟩
  · intro e he
    rcases hspec.2.1 e he with h0 | habsE
    · exact Or.inl h0
    · refine Or.inr ⟨habsE, ?_⟩
      rcases hspec.2.2.2.2 e he with hin | ⟨x, hx, hex⟩
      · exact absurd hin (List.not_mem_nil e)
      · obtain ⟨d, hd, hfd⟩ := List.mem_map.mp ((mem_sortByLen x _).mp hx)
        by_cases h0 : d.length = 0
        · exfalso
          rw [if_pos h0] at hfd
          have hx0 : x = [] := by
            rw [← hfd]
            exact List.length_eq_zero.mp h0
          rw [hx0] at hex
          have he0 : e = [] := hex
          rw [he0] at habsE
          simp [AbsClean] at habsE
        · rw [if_neg h0] at hfd
          refine ⟨d, hd, ?_⟩
          rw [hex, ← hfd]
  · have hcover := hspec.2.2.2.1
    intro d hd hdne
    have hmem : goAbs wd d ∈ dirs.map fun d => if d.length = 0 then d else goAbs wd d := by
      have heq : (if d.length = 0 then d else goAbs wd d) = goAbs wd d := by
        rw [if_neg (fun h0 => hdne (List.length_eq_zero.mp h0))]
      rw [← heq]
      exact List.mem_map_of_mem _ hd
    exact hcover (goAbs wd d) ((mem_sortByLen _ _).mpr hmem) (goAbs_ne_nil wd d)

/-- Witness for C8: with working directory `/w` and inputs `/a`, `/a/./b`
(cleaning to `/a/b`, a sub-path of `/a`) and `c` (relative, resolving to
`/w/c`), the survivor `/a` is absolute and trimmed, and is not a sub-path of
fellow survivor `/w/c`. -/
theorem c8_remove_subdirectories_amended_witness :
    ("/a".data ∈ RemoveSubdirectories "/w".data ["/a".data, "/a/./b".data, "c".data]) ∧
    ("/w/c".data ∈ RemoveSubdirectories "/w".data ["/a".data, "/a/./b".data, "c".data]) ∧
    AbsClean "/a".data ∧
    ¬ Subdir "/a".data "/w/c".data :=
  ⟨by decide,
   by decide,
   (((c8_remove_subdirectories_amended "/w".data ["/a".data, "/a/./b".data, "c".data]
      (by decide)).1 "/a".data (by decide)).resolve_left (by decide)).1,
   (c8_remove_subdirectories_amended "/w".data ["/a".data, "/a/./b".data, "c".data]
      (by decide)).2.1 "/a".data (by decide) "/w/c".data (by decide)⟩

/-- Counterexample for C8: the claim promises every surviving directory is in
absolute form. On input `["/"]` (the root directory, already absolute and
clean, so `Abs` leaves it alone), the loop trims the lone separator away and
the survivor is the empty string, which is not in absolute form. -/
theorem c8_root_dir_counterexample :
    RemoveSubdirectories "/w".data [['/']] = [[]] ∧ ¬ AbsClean [] := by
  constructor
  · decide
  · intro h
    simp [AbsClean] at h
